import Mathlib

/-!
Verification of the tabular aggregation and flow-graph derivation engine of
`src/app.py` (a pandas dashboard script).  Every definition below is a direct
shallow embedding of the pandas expression cited in its doc comment; theorems
about these definitions settle the specification's claims.
-/

/-- Decide `String <` by comparing the underlying character lists.  The
instance that otherwise applies is compiled from `String.ltb`, whose
well-founded recursion does not reduce definitionally, so concrete
evaluations inside proofs would get stuck without this; the relation decided
is the very same lexicographic order. -/
instance (priority := high) decStrLt : (a b : String) → Decidable (a < b) :=
  fun a b => decidable_of_iff (a.toList < b.toList) String.lt_iff_toList_lt.symm

/-- One record of the loaded table (app.py line 67, `pd.read_csv`).  The loader
string-casts the columns `lcat`, `GETM` and `district_name` (app.py lines
69-71), so those cells can never be missing: a NaN cell becomes the literal
string "nan".  The `typeofsupport` column is consumed as loaded, so a missing
cell stays NaN; it is modelled as `none`.  The numeric measure
`Beneficiary_Count` is modelled as an integer.  Columns not used by any
derivation under study (`block_name`, `categoryofsupport`) are omitted. -/
structure Row where
  district_name : String
  lcat : String
  GETM : String
  typeofsupport : Option String
  Beneficiary_Count : Int
deriving DecidableEq

abbrev Table := List Row

/-- app.py line 107: `df_filtered = df[df['district_name'].isin(selected_districts)]`. -/
def filterTable (T : Table) (selected : List String) : Table :=
  T.filter (fun r => decide (r.district_name ∈ selected))

/-- `df['Beneficiary_Count'].sum()` over a table (app.py lines 114 and 135). -/
def totalMeasure (T : Table) : Int :=
  (T.map (fun r => r.Beneficiary_Count)).sum

/-- Sum of the numeric component of a keyed list (the sum of an aggregation's
sums). -/
def sumSnd {α : Type} (l : List (α × Int)) : Int :=
  (l.map (fun e => e.2)).sum

/-- Merge one record's measure into an ascending keyed accumulation.  Keeps the
key list strictly ascending and unique, adding the value to an existing key's
sum. -/
def addToGroups (k : String) (v : Int) : List (String × Int) → List (String × Int)
  | [] => [(k, v)]
  | (k', v') :: rest =>
    if k < k' then (k, v) :: (k', v') :: rest
    else if k = k' then (k', v' + v) :: rest
    else (k', v') :: addToGroups k v rest

/-- `df.groupby(col)['Beneficiary_Count'].sum()` (app.py lines 115, 116, 151,
167, 240): ascending unique keys (pandas groupby sorts the keys by default),
each with the summed measure over its records.  A record whose key cell is
missing is dropped entirely (pandas groupby excludes NaN keys, its default
dropna=True).  `key` extracts the grouping column from a record; for the
string-cast columns it is total (`some`), for `typeofsupport` it can be
`none`. -/
def groupSum (key : Row → Option String) : Table → List (String × Int)
  | [] => []
  | r :: rest =>
    match key r with
    | none => groupSum key rest
    | some k => addToGroups k r.Beneficiary_Count (groupSum key rest)

/-- Lexicographic order on key pairs: the order in which pandas emits the
groups of `groupby(['lcat','GETM'])`. -/
def pairLt (a b : String × String) : Prop :=
  a.1 < b.1 ∨ (a.1 = b.1 ∧ a.2 < b.2)

instance : DecidableRel pairLt := fun a b =>
  inferInstanceAs (Decidable (a.1 < b.1 ∨ (a.1 = b.1 ∧ a.2 < b.2)))

/-- Two-key variant of `addToGroups`, keys ordered lexicographically. -/
def addToGroups2 (k : String × String) (v : Int) :
    List ((String × String) × Int) → List ((String × String) × Int)
  | [] => [(k, v)]
  | (k', v') :: rest =>
    if pairLt k k' then (k, v) :: (k', v') :: rest
    else if k = k' then (k', v' + v) :: rest
    else (k', v') :: addToGroups2 k v rest

/-- app.py line 186:
`sankey_data = df_filtered.groupby(['lcat','GETM'])['Beneficiary_Count'].sum().reset_index()`.
Both key columns are string-cast at load, so no record is dropped. -/
def sankeyData : Table → List ((String × String) × Int)
  | [] => []
  | r :: rest => addToGroups2 (r.lcat, r.GETM) r.Beneficiary_Count (sankeyData rest)

/-- Insert into a strictly ascending list, skipping duplicates: one step of
`sorted(list(series.unique()))`. -/
def insertDistinct (x : String) : List String → List String
  | [] => [x]
  | y :: ys =>
    if x < y then x :: y :: ys
    else if x = y then y :: ys
    else y :: insertDistinct x ys

/-- `sorted(list(series.unique()))`: the ascending list of distinct values. -/
def sortedDistinct (l : List String) : List String :=
  l.foldr insertDistinct []

/-- app.py line 188: `lcat_labels = sorted(list(sankey_data['lcat'].unique()))`. -/
def lcatLabels (T : Table) : List String :=
  sortedDistinct ((sankeyData T).map (fun e => e.1.1))

/-- app.py line 189: `getm_labels = sorted(list(sankey_data['GETM'].unique()))`. -/
def getmLabels (T : Table) : List String :=
  sortedDistinct ((sankeyData T).map (fun e => e.1.2))

/-- app.py line 190: `all_labels = lcat_labels + getm_labels`. -/
def allLabels (T : Table) : List String :=
  lcatLabels T ++ getmLabels T

/-- Position of the last occurrence of `x` in a list, if present.  app.py line
191 builds `label_map` by a python dict comprehension enumerating
`all_labels`; a label occurring twice (once per partition) keeps only its LAST
index, the later entry overwriting the earlier one. -/
def lastIdxAux (x : String) : List String → Option Nat
  | [] => none
  | y :: ys =>
    match lastIdxAux x ys with
    | some i => some (i + 1)
    | none => if y = x then some 0 else none

/-- `label_map[x]` (app.py line 191).  Every label actually looked up occurs in
`all_labels`, so the default is never reached for the code's inputs. -/
def labelMapIdx (T : Table) (x : String) : Nat :=
  (lastIdxAux x (allLabels T)).getD (allLabels T).length

/-- app.py line 193: `sources = sankey_data['lcat'].map(label_map).tolist()`. -/
def sankeySources (T : Table) : List Nat :=
  (sankeyData T).map (fun e => labelMapIdx T e.1.1)

/-- app.py line 194: `targets = sankey_data['GETM'].map(label_map).tolist()`. -/
def sankeyTargets (T : Table) : List Nat :=
  (sankeyData T).map (fun e => labelMapIdx T e.1.2)

/-- app.py line 195: `values = sankey_data['Beneficiary_Count'].tolist()`. -/
def sankeyValues (T : Table) : List Int :=
  (sankeyData T).map (fun e => e.2)

/-- Row keys of `pivot_table(index=rk, columns=ck, values='Beneficiary_Count',
aggfunc='sum', fill_value=0)` (app.py lines 223 and 243): the ascending
distinct values of the index column observed in the table being pivoted. -/
def pivotRowKeys (rk : Row → String) (T : Table) : List String :=
  sortedDistinct (T.map rk)

/-- Column keys of the pivot: ascending distinct observed values. -/
def pivotColKeys (ck : Row → String) (T : Table) : List String :=
  sortedDistinct (T.map ck)

/-- One cell of the pivot: the summed measure of the records matching the
(row key, column key) pair, and 0 when none match (`fill_value=0`). -/
def pivotCell (rk ck : Row → String) (T : Table) (r c : String) : Int :=
  totalMeasure (T.filter (fun x => decide (rk x = r) && decide (ck x = c)))

/-- The error pandas raises from `Series.idxmax()` on an empty series. -/
inductive PdErr where
  | valueError
deriving DecidableEq

/-- First key attaining the maximum value, scanning with a current best: a
later key replaces the best only when its value is strictly larger. -/
def idxmaxAux (k : String) (v : Int) : List (String × Int) → String
  | [] => k
  | (k', v') :: rest => if v < v' then idxmaxAux k' v' rest else idxmaxAux k v rest

/-- pandas `Series.idxmax()`: the first index attaining the maximal value; on
an empty series it raises `ValueError`.  app.py lines 115-116 call it with no
emptiness guard and no surrounding try/except, so the error propagates out of
the whole script. -/
def idxmax : List (String × Int) → Except PdErr String
  | [] => Except.error PdErr.valueError
  | (k, v) :: rest => Except.ok (idxmaxAux k v rest)

/-- app.py line 115:
`top_lcat = df_filtered.groupby('lcat')['Beneficiary_Count'].sum().idxmax()`. -/
def top_lcat (T : Table) : Except PdErr String :=
  idxmax (groupSum (fun r => some r.lcat) T)

/-- Result of numpy true division of two integer series sums. -/
inductive NpFloat where
  | finite : ℚ → NpFloat
  | posInf : NpFloat
  | negInf : NpFloat
  | nan : NpFloat
deriving DecidableEq

/-- numpy true division `a / b` on the int64 scalars produced by `.sum()`: a
zero denominator yields nan (for 0/0) or a signed infinity, raising no
exception (numpy emits only a RuntimeWarning). -/
def npDiv (a b : Int) : NpFloat :=
  if b = 0 then
    if a = 0 then NpFloat.nan else if 0 < a then NpFloat.posInf else NpFloat.negInf
  else NpFloat.finite ((a : ℚ) / (b : ℚ))

/-- Multiplication by the scalar 100; nan and the infinities absorb it. -/
def npMul100 : NpFloat → NpFloat
  | NpFloat.finite q => NpFloat.finite (q * 100)
  | x => x

/-- app.py line 142: `(total_int/state_total)*100`, the Selection vs State
percentage, with `total_int = df_filtered['Beneficiary_Count'].sum()` (line
114) and `state_total = df_state['Beneficiary_Count'].sum()` (line 135). -/
def selectionVsStatePct (dfFiltered dfState : Table) : NpFloat :=
  npMul100 (npDiv (totalMeasure dfFiltered) (totalMeasure dfState))

/-- A value rendering as not-applicable (nan or an infinity) rather than as a
finite percentage. -/
def isNotApplicable : NpFloat → Bool
  | NpFloat.finite _ => false
  | _ => true

/-- Value-descending comparison: the order `Series.nlargest` sorts by.  Ties
compare true both ways; stability of the sort keeps earlier positions first,
matching nlargest's keep='first'. -/
def rDesc (a b : String × Int) : Prop := b.2 ≤ a.2

/-- Value-ascending comparison: the order of the final
`sort_values('Beneficiary_Count')`. -/
def rAsc (a b : String × Int) : Prop := a.2 ≤ b.2

instance : DecidableRel rDesc := fun a b => inferInstanceAs (Decidable (b.2 ≤ a.2))

instance : DecidableRel rAsc := fun a b => inferInstanceAs (Decidable (a.2 ≤ b.2))

instance : IsTotal (String × Int) rAsc := ⟨fun a b => Int.le_total a.2 b.2⟩

instance : IsTrans (String × Int) rAsc := ⟨fun _ _ _ h1 h2 => le_trans h1 h2⟩

instance : IsTotal (String × Int) rDesc := ⟨fun a b => Int.le_total b.2 a.2⟩

instance : IsTrans (String × Int) rDesc := ⟨fun _ _ _ h1 h2 => le_trans h2 h1⟩

/-- Keys strictly ascending: the shape of a `groupSum` result. -/
def keyLt (a b : String × Int) : Prop := a.1 < b.1

instance : DecidableRel keyLt := fun a b => inferInstanceAs (Decidable (a.1 < b.1))

/-- The order actually realised between kept and discarded entries of
`nlargest` on a key-ascending series: larger value first, ties by ascending
key. -/
def rStrong (a b : String × Int) : Prop := b.2 < a.2 ∨ (b.2 = a.2 ∧ a.1 ≤ b.1)

/-- app.py line 151:
`df_filtered.groupby('typeofsupport')['Beneficiary_Count'].sum().nlargest(10).reset_index().sort_values('Beneficiary_Count')`.
`Series.nlargest(n)` (keep='first') is a stable descending sort by value
followed by taking the first `n`; the final `sort_values` re-sorts the at most
10 survivors ascending by value (numpy's sort on fewer than 16 elements is an
insertion sort, hence stable).  An `n` larger than the series size just keeps
everything. -/
def topN (agg : List (String × Int)) (n : Nat) : List (String × Int) :=
  List.insertionSort rAsc (List.take n (List.insertionSort rDesc agg))

/-- The example table of spec.md section 8: records (district A, type X, 3),
(A, Y, 2), (B, X, 5); the flow columns carry the disjoint vocabularies
X, Y versus P, Q. -/
def exTable : Table :=
  [⟨"A", "X", "P", some "X", 3⟩, ⟨"A", "Y", "Q", some "Y", 2⟩, ⟨"B", "X", "P", some "X", 5⟩]

/-- A single record whose lcat value equals its GETM value: the label-collision
input for the flow builder. -/
def exCollide : Table := [⟨"D", "A", "A", some "t", 1⟩]

/-- A record with a missing (NaN) typeofsupport and nonzero measure, plus a
normal record in the same district. -/
def exNanType : Table := [⟨"D", "L", "G", none, 5⟩, ⟨"D", "L", "G", some "t", 3⟩]

/-- A table whose total measure is zero. -/
def exZero : Table := [⟨"D", "L", "G", some "t", 0⟩]

/-! ### Basic lemmas: filtering and summation -/

theorem filterTable_nil (T : Table) : filterTable T [] = [] := by
  simp [filterTable]

theorem sumSnd_cons {α : Type} (e : α × Int) (l : List (α × Int)) :
    sumSnd (e :: l) = e.2 + sumSnd l := by
  simp [sumSnd]

theorem totalMeasure_cons (r : Row) (T : Table) :
    totalMeasure (r :: T) = r.Beneficiary_Count + totalMeasure T := by
  simp [totalMeasure]

theorem sumSnd_addToGroups (k : String) (v : Int) (l : List (String × Int)) :
    sumSnd (addToGroups k v l) = v + sumSnd l := by
  induction l with
  | nil => simp [addToGroups, sumSnd]
  | cons e rest ih =>
    obtain ⟨k', v'⟩ := e
    by_cases h1 : k < k'
    · simp [addToGroups, h1, sumSnd_cons]
    · by_cases h2 : k = k'
      · simp [addToGroups, h1, h2, sumSnd_cons]
        ring
      · simp [addToGroups, h1, h2, sumSnd_cons, ih]
        ring

theorem sumSnd_groupSum (key : Row → Option String) (T : Table) :
    sumSnd (groupSum key T) = totalMeasure (T.filter (fun r => (key r).isSome)) := by
  induction T with
  | nil => rfl
  | cons r rest ih =>
    cases h : key r with
    | none => simp [groupSum, h, List.filter_cons, ih]
    | some k =>
      simp [groupSum, h, List.filter_cons, sumSnd_addToGroups, ih, totalMeasure_cons]

theorem sumSnd_groupSum_total (g : Row → String) (T : Table) :
    sumSnd (groupSum (fun r => some (g r)) T) = totalMeasure T := by
  rw [sumSnd_groupSum]
  congr 1
  exact List.filter_eq_self.mpr (fun a _ => rfl)

/-! ### Lemmas about group keys -/

theorem fst_mem_addToGroups (k : String) (v : Int) (l : List (String × Int)) :
    ∀ e ∈ addToGroups k v l, e.1 = k ∨ ∃ u ∈ l, e.1 = u.1 := by
  induction l with
  | nil =>
    intro e he
    simp [addToGroups] at he
    simp [he]
  | cons u rest ih =>
    obtain ⟨k', v'⟩ := u
    intro e he
    by_cases h1 : k < k'
    · simp [addToGroups, h1] at he
      rcases he with rfl | rfl | h
      · exact Or.inl rfl
      · exact Or.inr ⟨(k', v'), by simp⟩
      · exact Or.inr ⟨e, by simp [h]⟩
    · by_cases h2 : k = k'
      · simp [addToGroups, h1, h2] at he
        rcases he with rfl | h
        · exact Or.inr ⟨(k', v'), by simp⟩
        · exact Or.inr ⟨e, by simp [h]⟩
      · simp [addToGroups, h1, h2] at he
        rcases he with rfl | h
        · exact Or.inr ⟨(k', v'), by simp⟩
        · rcases ih e h with h' | ⟨u, hu, h'⟩
          · exact Or.inl h'
          · exact Or.inr ⟨u, by simp [hu], h'⟩

theorem pairwise_keyLt_addToGroups (k : String) (v : Int) (l : List (String × Int))
    (h : l.Pairwise keyLt) : (addToGroups k v l).Pairwise keyLt := by
  induction l with
  | nil => simp [addToGroups, List.pairwise_cons]
  | cons u rest ih =>
    obtain ⟨k', v'⟩ := u
    rw [List.pairwise_cons] at h
    obtain ⟨h1, h2⟩ := h
    by_cases hlt : k < k'
    · simp only [addToGroups, if_pos hlt]
      rw [List.pairwise_cons]
      refine ⟨?_, by rw [List.pairwise_cons]; exact ⟨h1, h2⟩⟩
      intro b hb
      rcases List.mem_cons.mp hb with rfl | hb
      · exact hlt
      · exact lt_trans hlt (h1 b hb)
    · by_cases heq : k = k'
      · simp only [addToGroups, if_neg hlt, if_pos heq]
        rw [List.pairwise_cons]
        exact ⟨h1, h2⟩
      · simp only [addToGroups, if_neg hlt, if_neg heq]
        rw [List.pairwise_cons]
        have hk'k : k' < k := lt_of_le_of_ne (not_lt.mp hlt) (fun e => heq e.symm)
        refine ⟨?_, ih h2⟩
        intro b hb
        rcases fst_mem_addToGroups k v rest b hb with hb' | ⟨u, hu, hb'⟩
        · rw [keyLt, hb']
          exact hk'k
        · rw [keyLt, hb']
          exact h1 u hu

theorem pairwise_keyLt_groupSum (key : Row → Option String) (T : Table) :
    (groupSum key T).Pairwise keyLt := by
  induction T with
  | nil => exact List.Pairwise.nil
  | cons r rest ih =>
    cases h : key r with
    | none => simpa [groupSum, h] using ih
    | some k =>
      simp only [groupSum, h]
      exact pairwise_keyLt_addToGroups k r.Beneficiary_Count _ ih

/-! ### Lemmas about sorted distinct label lists -/

theorem mem_insertDistinct (x y : String) (l : List String) :
    y ∈ insertDistinct x l ↔ y = x ∨ y ∈ l := by
  induction l with
  | nil => simp [insertDistinct]
  | cons z zs ih =>
    by_cases h1 : x < z
    · simp [insertDistinct, h1, List.mem_cons]
    · by_cases h2 : x = z
      · subst h2
        simp [insertDistinct, h1, List.mem_cons]
      · simp [insertDistinct, h1, h2, List.mem_cons, ih]
        tauto

theorem pairwise_lt_insertDistinct (x : String) (l : List String)
    (h : l.Pairwise (· < ·)) : (insertDistinct x l).Pairwise (· < ·) := by
  induction l with
  | nil => simp [insertDistinct]
  | cons z zs ih =>
    rw [List.pairwise_cons] at h
    obtain ⟨h1, h2⟩ := h
    by_cases hlt : x < z
    · simp only [insertDistinct, if_pos hlt]
      rw [List.pairwise_cons]
      refine ⟨?_, by rw [List.pairwise_cons]; exact ⟨h1, h2⟩⟩
      intro b hb
      rcases List.mem_cons.mp hb with rfl | hb
      · exact hlt
      · exact lt_trans hlt (h1 b hb)
    · by_cases heq : x = z
      · simp only [insertDistinct, if_neg hlt, if_pos heq]
        rw [List.pairwise_cons]
        exact ⟨h1, h2⟩
      · simp only [insertDistinct, if_neg hlt, if_neg heq]
        rw [List.pairwise_cons]
        have hzx : z < x := lt_of_le_of_ne (not_lt.mp hlt) (fun e => heq e.symm)
        refine ⟨?_, ih h2⟩
        intro b hb
        rcases (mem_insertDistinct x b zs).mp hb with rfl | hb
        · exact hzx
        · exact h1 b hb

theorem mem_sortedDistinct (l : List String) (y : String) :
    y ∈ sortedDistinct l ↔ y ∈ l := by
  induction l with
  | nil => simp [sortedDistinct]
  | cons a as ih =>
    show y ∈ insertDistinct a (sortedDistinct as) ↔ _
    rw [mem_insertDistinct, ih, List.mem_cons]

theorem pairwise_lt_sortedDistinct (l : List String) :
    (sortedDistinct l).Pairwise (· < ·) := by
  induction l with
  | nil => exact List.Pairwise.nil
  | cons a as ih => exact pairwise_lt_insertDistinct a (sortedDistinct as) ih

theorem nodup_sortedDistinct (l : List String) : (sortedDistinct l).Nodup :=
  (pairwise_lt_sortedDistinct l).imp ne_of_lt

/-! ### Lemmas about the two-key grouping feeding the Sankey builder -/

theorem sumSnd_addToGroups2 (k : String × String) (v : Int)
    (l : List ((String × String) × Int)) :
    sumSnd (addToGroups2 k v l) = v + sumSnd l := by
  induction l with
  | nil => simp [addToGroups2, sumSnd]
  | cons e rest ih =>
    obtain ⟨k', v'⟩ := e
    by_cases h1 : pairLt k k'
    · simp [addToGroups2, h1, sumSnd_cons]
    · by_cases h2 : k = k'
      · simp only [addToGroups2, if_neg h1, if_pos h2, sumSnd_cons]
        ring
      · simp only [addToGroups2, if_neg h1, if_neg h2, sumSnd_cons, ih]
        ring

theorem sumSnd_sankeyData (T : Table) : sumSnd (sankeyData T) = totalMeasure T := by
  induction T with
  | nil => rfl
  | cons r rest ih =>
    simp [sankeyData, sumSnd_addToGroups2, ih, totalMeasure_cons]

/-! ### Lemmas about the label-map index -/

theorem lastIdxAux_cons (x y : String) (ys : List String) :
    lastIdxAux x (y :: ys)
      = match lastIdxAux x ys with
        | some i => some (i + 1)
        | none => if y = x then some 0 else none := rfl

theorem lastIdxAux_eq_none (x : String) (l : List String) :
    lastIdxAux x l = none ↔ x ∉ l := by
  induction l with
  | nil => simp [lastIdxAux]
  | cons y ys ih =>
    rw [lastIdxAux_cons]
    cases h : lastIdxAux x ys with
    | some i =>
      have hx : x ∈ ys := by
        by_contra hc
        rw [← ih, h] at hc
        cases hc
      simp [List.mem_cons, hx]
    | none =>
      have hx : x ∉ ys := ih.mp h
      by_cases hyx : y = x
      · subst hyx
        simp [List.mem_cons]
      · rw [if_neg hyx]
        simp only [List.mem_cons, true_iff]
        intro hor
        rcases hor with rfl | hmem
        · exact hyx rfl
        · exact hx hmem

theorem lastIdxAux_lt_length (x : String) (l : List String) (i : Nat)
    (h : lastIdxAux x l = some i) : i < l.length := by
  induction l generalizing i with
  | nil => cases h
  | cons y ys ih =>
    rw [lastIdxAux_cons] at h
    cases h' : lastIdxAux x ys with
    | some j =>
      rw [h'] at h
      injection h with h
      subst h
      simp only [List.length_cons]
      exact Nat.succ_lt_succ (ih j h')
    | none =>
      rw [h'] at h
      by_cases hyx : y = x
      · rw [if_pos hyx] at h
        injection h with h
        subst h
        simp
      · rw [if_neg hyx] at h
        cases h

theorem lastIdxAux_append_right (x : String) (A B : List String) (j : Nat)
    (h : lastIdxAux x B = some j) :
    lastIdxAux x (A ++ B) = some (A.length + j) := by
  induction A with
  | nil => simpa using h
  | cons a A' ih =>
    rw [List.cons_append, lastIdxAux_cons, ih]
    show some (A'.length + j + 1) = some ((a :: A').length + j)
    congr 1
    simp only [List.length_cons]
    omega

theorem lastIdxAux_append_left (x : String) (A B : List String) (h : x ∉ B) :
    lastIdxAux x (A ++ B) = lastIdxAux x A := by
  induction A with
  | nil =>
    simp only [List.nil_append]
    rw [(lastIdxAux_eq_none x B).mpr h]
    rfl
  | cons a A' ih =>
    rw [List.cons_append, lastIdxAux_cons, ih, ← lastIdxAux_cons]

theorem labelMapIdx_of_mem_left (T : Table) (x : String)
    (hx : x ∈ lcatLabels T) (hnot : x ∉ getmLabels T) :
    labelMapIdx T x < (lcatLabels T).length := by
  unfold labelMapIdx allLabels
  rw [lastIdxAux_append_left x _ _ hnot]
  cases h : lastIdxAux x (lcatLabels T) with
  | none => exact absurd hx ((lastIdxAux_eq_none x _).mp h)
  | some i =>
    simp only [Option.getD_some]
    exact lastIdxAux_lt_length x _ i h

theorem labelMapIdx_of_mem_right (T : Table) (x : String) (hx : x ∈ getmLabels T) :
    (lcatLabels T).length ≤ labelMapIdx T x ∧ labelMapIdx T x < (allLabels T).length := by
  unfold labelMapIdx allLabels
  cases h : lastIdxAux x (getmLabels T) with
  | none => exact absurd hx ((lastIdxAux_eq_none x _).mp h)
  | some j =>
    rw [lastIdxAux_append_right x _ _ j h]
    simp only [Option.getD_some]
    have hj := lastIdxAux_lt_length x _ j h
    constructor
    · exact Nat.le_add_right _ _
    · simp only [List.length_append]
      omega

theorem lcat_mem_of_mem_sankeyData (T : Table) (e : (String × String) × Int)
    (he : e ∈ sankeyData T) : e.1.1 ∈ lcatLabels T := by
  unfold lcatLabels
  rw [mem_sortedDistinct]
  exact List.mem_map_of_mem _ he

theorem getm_mem_of_mem_sankeyData (T : Table) (e : (String × String) × Int)
    (he : e ∈ sankeyData T) : e.1.2 ∈ getmLabels T := by
  unfold getmLabels
  rw [mem_sortedDistinct]
  exact List.mem_map_of_mem _ he

/-! ### Splitting the total measure along a predicate -/

theorem totalMeasure_filter_add (p : Row → Bool) (T : Table) :
    totalMeasure (T.filter p) + totalMeasure (T.filter (fun r => !(p r))) = totalMeasure T := by
  induction T with
  | nil => rfl
  | cons r rest ih =>
    by_cases h : p r = true
    · simp only [List.filter_cons, h, Bool.not_true, if_pos, totalMeasure_cons, if_neg,
        Bool.false_eq_true, ite_true, ite_false]
      omega
    · have h' : p r = false := by simpa using h
      simp only [List.filter_cons, h', Bool.not_false, totalMeasure_cons,
        Bool.false_eq_true, ite_true, ite_false]
      omega

theorem totalMeasure_nonneg (T : Table) (hall : ∀ x ∈ T, 0 ≤ x.Beneficiary_Count) :
    0 ≤ totalMeasure T := by
  induction T with
  | nil => exact le_refl 0
  | cons a rest ih =>
    rw [totalMeasure_cons]
    have h1 := hall a (List.mem_cons_self a rest)
    have h2 := ih fun x hx => hall x (List.mem_cons_of_mem a hx)
    omega

theorem totalMeasure_pos_of_mem (T : Table) (r : Row) (hr : r ∈ T)
    (hall : ∀ x ∈ T, 0 ≤ x.Beneficiary_Count) (hpos : 0 < r.Beneficiary_Count) :
    0 < totalMeasure T := by
  induction T with
  | nil => cases hr
  | cons a rest ih =>
    rw [totalMeasure_cons]
    have ha := hall a (List.mem_cons_self a rest)
    have hrest : ∀ x ∈ rest, 0 ≤ x.Beneficiary_Count :=
      fun x hx => hall x (List.mem_cons_of_mem a hx)
    rcases List.mem_cons.mp hr with rfl | hr'
    · have := totalMeasure_nonneg rest hrest
      omega
    · have := ih hr' hrest
      omega

/-- C2: the dominant-category metrics (app.py lines 115-116) call
`Series.idxmax()` on a groupby aggregation with no emptiness guard and no
handler anywhere in the script.  On an empty aggregation — here produced by a
selection matching no record — the call raises pandas' `ValueError`, an
unhandled crash, not a defined recoverable `EmptyAggregation` condition.  This
theorem evaluates the embedded code at the failing input. -/
theorem top_lcat_empty_raises :
    top_lcat (filterTable exTable ["Z"]) = Except.error PdErr.valueError := rfl

/-- C3: filtering with an empty selection yields the empty table (an `isin`
against an empty list retains nothing — empty selection is not treated as "no
filter"), and every downstream derivation of app.py then yields an empty
result: every grouped aggregation is empty with zero total, every pivot has
empty row and column key sets and all-zero cells, and the flow graph has no
node labels and no source/target/value entries. -/
theorem empty_selection_empty_results (T : Table) :
    filterTable T [] = []
  ∧ (∀ k : Row → Option String,
      groupSum k (filterTable T []) = [] ∧ sumSnd (groupSum k (filterTable T [])) = 0)
  ∧ (∀ rk : Row → String, pivotRowKeys rk (filterTable T []) = [])
  ∧ (∀ ck : Row → String, pivotColKeys ck (filterTable T []) = [])
  ∧ (∀ rk ck : Row → String, ∀ r c : String, pivotCell rk ck (filterTable T []) r c = 0)
  ∧ allLabels (filterTable T []) = []
  ∧ sankeySources (filterTable T []) = []
  ∧ sankeyTargets (filterTable T []) = []
  ∧ sankeyValues (filterTable T []) = [] := by
  have h : filterTable T [] = [] := filterTable_nil T
  rw [h]
  exact ⟨rfl, fun k => ⟨rfl, rfl⟩, fun rk => rfl, fun ck => rfl,
    fun rk ck r c => rfl, rfl, rfl, rfl, rfl⟩

/-- C4 counterexample: conservation of mass fails as universally stated.  For
the table `exNanType` (one record whose `typeofsupport` cell is missing and
carries measure 5, one normal record with measure 3) and the selection
containing its district, grouping the filtered rows by `typeofsupport` total
3, while the measure over the matching rows totals 8: pandas groupby drops
the NaN-keyed record. -/
theorem groupSum_conservation_cex :
    ¬ (sumSnd (groupSum (fun r => r.typeofsupport) (filterTable exNanType ["D"]))
        = totalMeasure (filterTable exNanType ["D"])) := by decide

/-- C4 (amended): for every table, selection and key column whose cells are
never missing (which in this code means the string-cast columns `lcat`,
`GETM`, `district_name`, modelled by a total extractor `g`), the sum of all
sums of `groupSum` over the filtered table equals the sum of the measure over
exactly the rows of `T` matching `S`; and the keys of any grouping — also over
the possibly-missing `typeofsupport` column — are strictly ascending, hence
unique.  (For a key column with missing cells the conservation equation can
fail, see the counterexample.) -/
theorem groupSum_conservation (T : Table) (S : List String) (g : Row → String)
    (key : Row → Option String) :
    sumSnd (groupSum (fun r => some (g r)) (filterTable T S)) = totalMeasure (filterTable T S)
  ∧ (groupSum key (filterTable T S)).Pairwise keyLt
  ∧ ((groupSum key (filterTable T S)).map (fun e => e.1)).Nodup := by
  refine ⟨sumSnd_groupSum_total g _, pairwise_keyLt_groupSum key _, ?_⟩
  show ((groupSum key (filterTable T S)).map (fun e => e.1)).Pairwise (fun a b => a ≠ b)
  refine List.Pairwise.map (fun e => e.1) ?_ (pairwise_keyLt_groupSum key (filterTable T S))
  intro a b hab
  exact ne_of_lt hab

/-- C8: conservation of the flow graph built by app.py lines 186-195: the sum
of all edge weights (`values`) equals the total measure of the filtered table,
i.e. the total outgoing weight across all source nodes equals the total
measure. -/
theorem sankey_conservation (T : Table) (S : List String) :
    (sankeyValues (filterTable T S)).sum = totalMeasure (filterTable T S) :=
  sumSnd_sankeyData (filterTable T S)

/-- C9: the Selection vs State percentage (app.py line 142) with a zero
denominator.  The sums are numpy int64 scalars, whose true division follows
IEEE semantics: a zero `state_total` produces nan (or a signed infinity), a
defined non-finite "not applicable" value, and no exception is raised. -/
theorem zero_denominator_not_applicable (dfFiltered dfState : Table)
    (h : totalMeasure dfState = 0) :
    isNotApplicable (selectionVsStatePct dfFiltered dfState) = true := by
  by_cases h0 : totalMeasure dfFiltered = 0 <;> by_cases h1 : 0 < totalMeasure dfFiltered <;>
    simp [selectionVsStatePct, npDiv, npMul100, isNotApplicable, h, h0, h1]

/-- C9 witness at a concrete zero-measure table. -/
theorem zero_denominator_not_applicable_witness :
    isNotApplicable (selectionVsStatePct (filterTable exZero ["D"]) exZero) = true :=
  zero_denominator_not_applicable (filterTable exZero ["D"]) exZero (by decide)

/-- C10: the loader string-casts `lcat`, `GETM` and `district_name` but not
`typeofsupport` (app.py lines 69-71), so a missing `typeofsupport` cell stays
NaN and `groupby('typeofsupport')` (app.py lines 151, 240) drops that record
entirely: the grouped sums add up to the measure over only the records whose
key is present, and with a nonzero-measure NaN-keyed record present (and
nonnegative counts) the sum of all group sums is strictly below the table's
total measure. -/
theorem nan_typeofsupport_dropped (T : Table)
    (hnn : ∀ x ∈ T, 0 ≤ x.Beneficiary_Count)
    (hex : ∃ x ∈ T, x.typeofsupport = none ∧ x.Beneficiary_Count ≠ 0) :
    sumSnd (groupSum (fun r => r.typeofsupport) T)
        = totalMeasure (T.filter (fun r => (r.typeofsupport).isSome))
  ∧ sumSnd (groupSum (fun r => r.typeofsupport) T) < totalMeasure T := by
  obtain ⟨r, hrT, hnone, hne⟩ := hex
  have hcons := sumSnd_groupSum (fun r => r.typeofsupport) T
  refine ⟨hcons, ?_⟩
  rw [hcons]
  have hsplit := totalMeasure_filter_add (fun r => (r.typeofsupport).isSome) T
  have hrmem : r ∈ T.filter (fun r => !((r.typeofsupport).isSome)) := by
    rw [List.mem_filter]
    exact ⟨hrT, by rw [hnone]; rfl⟩
  have hpos : 0 < totalMeasure (T.filter (fun r => !((r.typeofsupport).isSome))) := by
    refine totalMeasure_pos_of_mem _ r hrmem ?_ ?_
    · intro x hx
      exact hnn x (List.mem_filter.mp hx).1
    · exact lt_of_le_of_ne (hnn r hrT) (Ne.symm hne)
  omega

/-- C10 witness at the concrete table with one NaN-keyed record of measure 5. -/
theorem nan_typeofsupport_dropped_witness :
    sumSnd (groupSum (fun r => r.typeofsupport) exNanType) < totalMeasure exNanType :=
  (nan_typeofsupport_dropped exNanType (by decide) (by decide)).2

/-- C1 counterexample: on the single-record table whose lcat value equals its
GETM value, `label_map` (a dict comprehension over `all_labels`) maps the
shared label to its last, target-partition index, so the one edge has equal
source and target indices — a self-loop, contradicting the claim that no edge
is ever a self-loop. -/
theorem sankey_label_collision_cex :
    ¬ (∀ p ∈ (sankeySources exCollide).zip (sankeyTargets exCollide), p.1 ≠ p.2) := by
  decide

/-- C1 (amended): for every filtered table, the flow builder gives every
distinct source value and every distinct target value its own node entry
(each partition ascending and duplicate-free), source labels indexed first
and target labels after; a label occurring in both partitions still has two
node entries.  PROVIDED no label occurs in both the source and the target
column, every edge runs from a source-partition index to a target-partition
index and no edge is a self-loop.  When a label collides, however, the edge
lookup resolves it to its target-partition index, so an edge whose source
value equals its target value is a self-loop (see the counterexample). -/
theorem sankey_partition_nodes (T : Table) (S : List String) (l : String) :
    (lcatLabels (filterTable T S)).Pairwise (· < ·)
  ∧ (getmLabels (filterTable T S)).Pairwise (· < ·)
  ∧ allLabels (filterTable T S) = lcatLabels (filterTable T S) ++ getmLabels (filterTable T S)
  ∧ (l ∈ lcatLabels (filterTable T S) → l ∈ getmLabels (filterTable T S) →
      (allLabels (filterTable T S)).count l = 2)
  ∧ ((∀ x ∈ lcatLabels (filterTable T S), x ∉ getmLabels (filterTable T S)) →
      ∀ p ∈ (sankeySources (filterTable T S)).zip (sankeyTargets (filterTable T S)),
        p.1 < (lcatLabels (filterTable T S)).length
        ∧ (lcatLabels (filterTable T S)).length ≤ p.2
        ∧ p.2 < (allLabels (filterTable T S)).length
        ∧ p.1 ≠ p.2) := by
  refine ⟨pairwise_lt_sortedDistinct _, pairwise_lt_sortedDistinct _, rfl, ?_, ?_⟩
  · intro h1 h2
    rw [allLabels, List.count_append]
    have n1 : (lcatLabels (filterTable T S)).count l = 1 :=
      List.count_eq_one_of_mem (nodup_sortedDistinct _) h1
    have n2 : (getmLabels (filterTable T S)).count l = 1 :=
      List.count_eq_one_of_mem (nodup_sortedDistinct _) h2
    rw [n1, n2]
  · intro hdisj p hp
    rw [sankeySources, sankeyTargets, List.zip_map'] at hp
    obtain ⟨e, he, hpe⟩ := List.mem_map.mp hp
    subst hpe
    have hsrc := lcat_mem_of_mem_sankeyData _ e he
    have htgt := getm_mem_of_mem_sankeyData _ e he
    have h1 := labelMapIdx_of_mem_left _ _ hsrc (hdisj _ hsrc)
    have h2 := labelMapIdx_of_mem_right _ _ htgt
    refine ⟨h1, h2.1, h2.2, ?_⟩
    show labelMapIdx (filterTable T S) e.1.1 ≠ labelMapIdx (filterTable T S) e.1.2
    have h3 := h2.1
    omega

/-- C1 witness: the collision table realises the two-entries count, and the
spec example table (disjoint vocabularies) realises the partition bounds for
its first edge. -/
theorem sankey_partition_nodes_witness :
    (allLabels (filterTable exCollide ["D"])).count "A" = 2
  ∧ ((0 : Nat) < (lcatLabels (filterTable exTable ["A", "B"])).length
     ∧ (lcatLabels (filterTable exTable ["A", "B"])).length ≤ 2
     ∧ 2 < (allLabels (filterTable exTable ["A", "B"])).length
     ∧ (0 : Nat) ≠ 2) :=
  ⟨(sankey_partition_nodes exCollide ["D"] "A").2.2.2.1 (by decide) (by decide),
   (sankey_partition_nodes exTable ["A", "B"] "X").2.2.2.2 (by decide) (0, 2) (by decide)⟩

/-- C7: the pivot builder (app.py lines 223 and 243) produces row keys and
column keys that are exactly the ascending duplicate-free distinct values
observed in the filtered table (not the unfiltered domain), every cell backed
by at least one record holds the summed measure over its matching records,
and every cell backed by no record is exactly zero. -/
theorem pivot_spec (rk ck : Row → String) (T : Table) (S : List String) (v r c : String) :
    (pivotRowKeys rk (filterTable T S)).Pairwise (· < ·)
  ∧ (pivotColKeys ck (filterTable T S)).Pairwise (· < ·)
  ∧ (v ∈ pivotRowKeys rk (filterTable T S) ↔ ∃ x ∈ filterTable T S, rk x = v)
  ∧ (v ∈ pivotColKeys ck (filterTable T S) ↔ ∃ x ∈ filterTable T S, ck x = v)
  ∧ ((¬ ∃ x ∈ filterTable T S, rk x = r ∧ ck x = c) →
      pivotCell rk ck (filterTable T S) r c = 0)
  ∧ pivotCell rk ck (filterTable T S) r c
      = totalMeasure ((filterTable T S).filter
          (fun x => decide (rk x = r) && decide (ck x = c))) := by
  refine ⟨pairwise_lt_sortedDistinct _, pairwise_lt_sortedDistinct _, ?_, ?_, ?_, rfl⟩
  · rw [pivotRowKeys, mem_sortedDistinct, List.mem_map]
  · rw [pivotColKeys, mem_sortedDistinct, List.mem_map]
  · intro hno
    rw [pivotCell]
    have hfil : (filterTable T S).filter (fun x => decide (rk x = r) && decide (ck x = c))
        = [] := by
      rw [List.filter_eq_nil_iff]
      intro a ha hcon
      rw [Bool.and_eq_true, decide_eq_true_eq, decide_eq_true_eq] at hcon
      exact hno ⟨a, ha, hcon⟩
    rw [hfil]
    rfl

/-- C7 witness on the spec example table: the (B, Y) pair is backed by no
record, and its cell is zero. -/
theorem pivot_spec_witness :
    pivotCell (fun x => x.district_name) (fun x => x.lcat)
      (filterTable exTable ["A", "B"]) "B" "Y" = 0 :=
  (pivot_spec (fun x => x.district_name) (fun x => x.lcat)
    exTable ["A", "B"] "B" "B" "Y").2.2.2.2.1 (by decide)

/-! ### Sorting lemmas for the ranker -/

theorem orderedInsert_rAsc_comm (x y : String × Int) (M : List (String × Int))
    (h : x.2 < y.2) :
    List.orderedInsert rAsc y (List.orderedInsert rAsc x M)
      = List.orderedInsert rAsc x (List.orderedInsert rAsc y M) := by
  have hxy : rAsc x y := le_of_lt h
  have hyx : ¬ rAsc y x := not_le.mpr h
  induction M with
  | nil =>
    simp only [List.orderedInsert, if_pos hxy, if_neg hyx]
  | cons z M' ih =>
    by_cases hxz : rAsc x z
    · by_cases hyz : rAsc y z
      · simp only [List.orderedInsert, if_pos hxz, if_pos hyz, if_neg hyx, if_pos hxy]
      · simp only [List.orderedInsert, if_pos hxz, if_neg hyz, if_neg hyx]
    · have hyz : ¬ rAsc y z := by
        have hxz' : ¬ x.2 ≤ z.2 := hxz
        show ¬ y.2 ≤ z.2
        omega
      simp only [List.orderedInsert, if_neg hxz, if_neg hyz]
      rw [ih]

theorem sortAsc_orderedInsert_rDesc (x : String × Int) (L : List (String × Int)) :
    List.insertionSort rAsc (List.orderedInsert rDesc x L)
      = List.orderedInsert rAsc x (List.insertionSort rAsc L) := by
  induction L with
  | nil => rfl
  | cons y L' ih =>
    by_cases hxy : rDesc x y
    · simp only [List.orderedInsert, if_pos hxy, List.insertionSort]
    · have h : x.2 < y.2 := not_le.mp hxy
      simp only [List.orderedInsert, if_neg hxy, List.insertionSort]
      rw [ih]
      exact orderedInsert_rAsc_comm x y _ h

theorem sortAsc_sortDesc (L : List (String × Int)) :
    List.insertionSort rAsc (List.insertionSort rDesc L)
      = List.insertionSort rAsc L := by
  induction L with
  | nil => rfl
  | cons x L' ih =>
    simp only [List.insertionSort]
    rw [sortAsc_orderedInsert_rDesc, ih]

theorem sortAsc_idem (L : List (String × Int)) :
    List.insertionSort rAsc (List.insertionSort rAsc L)
      = List.insertionSort rAsc L :=
  List.Sorted.insertionSort_eq (List.sorted_insertionSort rAsc L)

/-- C6: the ranker is idempotent — running
`nlargest(n)` + ascending re-sort on its own output returns that output
unchanged, for every aggregation list and every `n`. -/
theorem topN_idem (agg : List (String × Int)) (n : Nat) :
    topN (topN agg n) n = topN agg n := by
  unfold topN
  have hlen : (List.insertionSort rDesc (List.insertionSort rAsc
      (List.take n (List.insertionSort rDesc agg)))).length ≤ n := by
    rw [List.length_insertionSort, List.length_insertionSort, List.length_take]
    exact min_le_left _ _
  rw [List.take_of_length_le hlen, sortAsc_sortDesc, sortAsc_idem]

/-! ### Stability of the descending selection -/

theorem pairwise_rStrong_orderedInsert (a : String × Int) (M : List (String × Int))
    (hM : M.Pairwise rStrong) (ha : ∀ b ∈ M, a.1 < b.1) :
    (List.orderedInsert rDesc a M).Pairwise rStrong := by
  induction M with
  | nil => simp [List.orderedInsert, List.pairwise_cons]
  | cons b M' ih =>
    rw [List.pairwise_cons] at hM
    obtain ⟨hb, hM'⟩ := hM
    by_cases hab : rDesc a b
    · simp only [List.orderedInsert, if_pos hab]
      rw [List.pairwise_cons]
      constructor
      · intro c hc
        rcases List.mem_cons.mp hc with rfl | hc'
        · by_cases hlt : c.2 < a.2
          · exact Or.inl hlt
          · have heq : c.2 = a.2 := le_antisymm hab (not_lt.mp hlt)
            exact Or.inr ⟨heq, le_of_lt (ha c (List.mem_cons_self _ _))⟩
        · have hbc := hb c hc'
          have hc2 : c.2 ≤ b.2 := by
            rcases hbc with h' | ⟨h', _⟩
            · exact le_of_lt h'
            · exact le_of_eq h'
          by_cases hlt : c.2 < a.2
          · exact Or.inl hlt
          · have heq : c.2 = a.2 := le_antisymm (le_trans hc2 hab) (not_lt.mp hlt)
            exact Or.inr ⟨heq, le_of_lt (ha c (List.mem_cons_of_mem _ hc'))⟩
      · rw [List.pairwise_cons]
        exact ⟨hb, hM'⟩
    · simp only [List.orderedInsert, if_neg hab]
      rw [List.pairwise_cons]
      have hab' : a.2 < b.2 := not_le.mp hab
      constructor
      · intro c hc
        rcases (List.mem_orderedInsert rDesc).mp hc with rfl | hc'
        · exact Or.inl hab'
        · exact hb c hc'
      · exact ih hM' (fun c hc => ha c (List.mem_cons_of_mem _ hc))

theorem pairwise_rStrong_insertionSort (L : List (String × Int))
    (h : L.Pairwise keyLt) :
    (List.insertionSort rDesc L).Pairwise rStrong := by
  induction L with
  | nil => exact List.Pairwise.nil
  | cons a L' ih =>
    rw [List.pairwise_cons] at h
    simp only [List.insertionSort]
    refine pairwise_rStrong_orderedInsert a _ (ih h.2) ?_
    intro b hb
    exact h.1 b ((List.mem_insertionSort rDesc).mp hb)

theorem eq_of_keyEq_of_pairwise (L : List (String × Int)) (h : L.Pairwise keyLt)
    (x y : String × Int) (hx : x ∈ L) (hy : y ∈ L) (hk : x.1 = y.1) : x = y := by
  induction L with
  | nil => cases hx
  | cons a L' ih =>
    rw [List.pairwise_cons] at h
    rcases List.mem_cons.mp hx with rfl | hx' <;> rcases List.mem_cons.mp hy with rfl | hy'
    · rfl
    · exact absurd hk (ne_of_lt (h.1 y hy'))
    · exact absurd hk (ne_of_gt (h.1 x hx'))
    · exact ih h.2 hx' hy'

/-- C5: ranking semantics of app.py line 151 on a key-ascending aggregation
(the shape every `groupSum` result has): `topN` keeps `min n (size)` entries;
its output is re-sorted ascending by sum; when `n` is at least the size it is
a permutation of the whole input (no error); every kept entry comes from the
input; and every discarded entry loses to every kept entry — either by a
strictly smaller sum, or at an equal sum by the kept entry's strictly smaller
key (ties broken by ascending key order). -/
theorem topN_spec (agg : List (String × Int)) (n : Nat)
    (hkeys : agg.Pairwise keyLt) :
    (topN agg n).length = min n agg.length
  ∧ List.Sorted rAsc (topN agg n)
  ∧ (agg.length ≤ n → (topN agg n).Perm agg)
  ∧ (∀ x ∈ topN agg n, x ∈ agg)
  ∧ (∀ x ∈ topN agg n, ∀ y ∈ agg, y ∉ topN agg n →
      y.2 < x.2 ∨ (y.2 = x.2 ∧ x.1 < y.1)) := by
  have hDperm : (List.insertionSort rDesc agg).Perm agg := List.perm_insertionSort rDesc agg
  have htake : (topN agg n).Perm (List.take n (List.insertionSort rDesc agg)) :=
    List.perm_insertionSort rAsc _
  refine ⟨?_, ?_, ?_, ?_, ?_⟩
  · rw [htake.length_eq, List.length_take, hDperm.length_eq]
  · exact List.sorted_insertionSort rAsc _
  · intro hn
    have heq : List.take n (List.insertionSort rDesc agg) = List.insertionSort rDesc agg :=
      List.take_of_length_le (by rw [hDperm.length_eq]; exact hn)
    have h2 := htake
    rw [heq] at h2
    exact h2.trans hDperm
  · intro x hx
    exact hDperm.mem_iff.mp (List.take_subset _ _ (htake.mem_iff.mp hx))
  · intro x hx y hy hyn
    have hstrong : (List.insertionSort rDesc agg).Pairwise rStrong :=
      pairwise_rStrong_insertionSort agg hkeys
    have hsplit : List.take n (List.insertionSort rDesc agg)
        ++ List.drop n (List.insertionSort rDesc agg) = List.insertionSort rDesc agg :=
      List.take_append_drop n _
    rw [← hsplit] at hstrong
    have hcross := (List.pairwise_append.mp hstrong).2.2
    have hx1 : x ∈ List.take n (List.insertionSort rDesc agg) := htake.mem_iff.mp hx
    have hy1 : y ∈ List.insertionSort rDesc agg := hDperm.mem_iff.mpr hy
    have hy2 : y ∈ List.drop n (List.insertionSort rDesc agg) := by
      rw [← hsplit] at hy1
      rcases List.mem_append.mp hy1 with h' | h'
      · exact absurd (htake.mem_iff.mpr h') hyn
      · exact h'
    rcases hcross x hx1 y hy2 with h' | ⟨h1, h2⟩
    · exact Or.inl h'
    · refine Or.inr ⟨h1, lt_of_le_of_ne h2 ?_⟩
      intro heq
      have hxagg : x ∈ agg := hDperm.mem_iff.mp (List.take_subset _ _ hx1)
      have hxeqy : x = y := eq_of_keyEq_of_pairwise agg hkeys x y hxagg hy heq
      exact hyn (hxeqy ▸ hx)

/-- C5 witness on the spec example aggregation: with more requested entries
than available the whole result is returned, and at `n = 1` the tie between
the equal sums 5 is broken in favour of the lexically smaller key "A". -/
theorem topN_spec_witness :
    (topN [("A", (5 : Int)), ("B", 5)] 5).Perm [("A", (5 : Int)), ("B", 5)]
  ∧ (("B", (5 : Int)).2 < ("A", (5 : Int)).2
      ∨ (("B", (5 : Int)).2 = ("A", (5 : Int)).2
         ∧ ("A", (5 : Int)).1 < ("B", (5 : Int)).1)) :=
  ⟨(topN_spec [("A", 5), ("B", 5)] 5 (by decide)).2.2.1 (by decide),
   (topN_spec [("A", 5), ("B", 5)] 1 (by decide)).2.2.2.2
     ("A", 5) (by decide) ("B", 5) (by decide) (by decide)⟩
